import Mathlib

/-!
Verification of the inventory-management data layer.

The definitions below are shallow embeddings of the Python source:
* `src/models/category.py` — hierarchical categories (`full_path`, `level`,
  `get_all_ancestors`, `get_all_descendants`, `can_be_parent_of`,
  `move_to_parent`), modelled as a forest: a list of nodes carrying an
  immutable `id`, a `name`, an optional `parentId` foreign key and an
  `is_active` flag.  Walking `parent` links is expressed with explicit fuel,
  since the Python `while` loops terminate only on acyclic data.
* `src/models/base.py` — `to_dict` / `from_dict` (de)serialization, modelled
  over a dynamic Python-value type `PyVal`; UUID and datetime values are
  identified with their canonical string renderings.
* `src/models/supplier.py` — `get_total_inventory_value`, with `Decimal`
  modelled by exact rationals.
* `src/database/connection.py` — `run_migrations`, with the database ledger
  modelled as the list of applied version strings and per-file execution
  outcomes abstracted into a boolean-valued function.
-/

namespace Inventory

/-! ## Category forest (src/models/category.py) -/

structure Category where
  id : Nat
  name : String
  parentId : Option Nat
  is_active : Bool
deriving DecidableEq

abbrev Forest := List Category

/-- Resolve a foreign key: first node of the forest with the given id
(models SQLAlchemy resolving the `parent` relationship via `parent_id`). -/
def findCat (f : Forest) (i : Nat) : Option Category :=
  f.find? (fun c => c.id == i)

/-- The `parent` relationship of a node: `None` for roots, otherwise the
node referenced by `parent_id`. -/
def getParent (f : Forest) (c : Category) : Option Category :=
  match c.parentId with
  | none => none
  | some pid => findCat f pid

/-- Fuel-bounded walk up the parent chain collecting ancestors, nearest
first (the loop body of `Category.get_all_ancestors`). -/
def ancestorsFuel (f : Forest) : Nat → Category → List Category
  | 0, _ => []
  | n + 1, c =>
    match getParent f c with
    | none => []
    | some p => p :: ancestorsFuel f n p

/-- `Category.get_all_ancestors`: walk the parent chain to the root,
nearest first.  A forest of `f.length` nodes has chains of at most
`f.length` links when acyclic, so that much fuel is exact. -/
def get_all_ancestors (f : Forest) (c : Category) : List Category :=
  ancestorsFuel f f.length c

/-- Walking `parent` links from `c` reaches a root within `n` steps. -/
def rootedFuel (f : Forest) : Nat → Category → Bool
  | 0, c => (getParent f c).isNone
  | n + 1, c =>
    match getParent f c with
    | none => true
    | some p => rootedFuel f n p

/-- Fuel-bounded version of the loop in `Category.level`. -/
def levelFuel (f : Forest) : Nat → Category → Nat
  | 0, _ => 0
  | n + 1, c =>
    match getParent f c with
    | none => 0
    | some p => levelFuel f n p + 1

/-- `Category.level`: number of parent links to the root (roots have 0). -/
def level (f : Forest) (c : Category) : Nat :=
  levelFuel f f.length c

/-- Fuel-bounded version of the loop in `Category.full_path`: the names
from the node up to the root, leaf first. -/
def pathPartsFuel (f : Forest) : Nat → Category → List String
  | 0, c => [c.name]
  | n + 1, c =>
    match getParent f c with
    | none => [c.name]
    | some p => c.name :: pathPartsFuel f n p

/-- `Category.full_path`: the collected names are reversed (root first)
and joined with a separator. -/
def full_path (f : Forest) (c : Category) : String :=
  " > ".intercalate (pathPartsFuel f f.length c).reverse

/-- `Category.can_be_parent_of`: a node cannot become the parent of itself
nor of any of its current ancestors. -/
def can_be_parent_of (f : Forest) (self potential_child : Category) : Bool :=
  if potential_child = self then false
  else decide (potential_child ∉ get_all_ancestors f self)

/-- The update applied to a single node when its `parent_id` is rewritten. -/
def updNode (cid : Nat) (pid : Option Nat) (x : Category) : Category :=
  if x.id = cid then { x with parentId := pid } else x

/-- Rewrite the `parent_id` of the node with id `cid` (the two assignments
in `Category.move_to_parent`; the `parent` relationship follows the key). -/
def setParent (f : Forest) (cid : Nat) (pid : Option Nat) : Forest :=
  f.map (updNode cid pid)

/-- `Category.move_to_parent`: detaching to root always succeeds; moving
under a node succeeds only if `can_be_parent_of` allows it, and otherwise
the forest is returned unchanged together with `false`. -/
def move_to_parent (f : Forest) (c : Category) (newParent : Option Category) :
    Forest × Bool :=
  match newParent with
  | none => (setParent f c.id none, true)
  | some p =>
    if can_be_parent_of f p c then (setParent f c.id (some p.id), true)
    else (f, false)

/-- A `move_to_parent` call addressed by ids: both the moved node and the
new parent are the caller's live objects, i.e. current nodes of the forest;
unknown ids make the call a no-op. -/
def moveById (f : Forest) (cid : Nat) (pid : Option Nat) : Forest × Bool :=
  match findCat f cid with
  | none => (f, false)
  | some c =>
    match pid with
    | none => move_to_parent f c none
    | some i =>
      match findCat f i with
      | none => (f, false)
      | some p => move_to_parent f c (some p)

/-- Run a sequence of `move_to_parent` calls. -/
def applyMoves (f : Forest) (ms : List (Nat × Option Nat)) : Forest :=
  ms.foldl (fun g m => (moveById g m.1 m.2).1) f

/-- Well-formedness of the stored forest: ids are unique (primary key) and
every `parent_id` resolves to a node of the forest (foreign key). -/
def WfForest (f : Forest) : Prop :=
  (f.map Category.id).Nodup ∧
    ∀ c ∈ f, ∀ pid, c.parentId = some pid → ∃ p ∈ f, p.id = pid

instance (f : Forest) : Decidable (WfForest f) := by
  unfold WfForest; infer_instance

/-- Acyclicity: from every node, the parent chain reaches a root within
`f.length` steps (in particular the chain never loops). -/
def Acyclic (f : Forest) : Prop :=
  ∀ c ∈ f, rootedFuel f f.length c = true

instance (f : Forest) : Decidable (Acyclic f) := by
  unfold Acyclic; infer_instance

/-- The actual depth of the forest: the largest level of any node. -/
def forestDepth (f : Forest) : Nat :=
  (f.map (fun c => level f c)).foldr max 0

/-! ### Example forest (the Electronics scenario of the spec) -/

def eEx : Category := ⟨0, "Electronics", none, true⟩

def lEx : Category := ⟨1, "Laptops", some 0, true⟩

def gEx : Category := ⟨2, "Gaming Laptops", some 1, true⟩

def fEx : Forest := [eEx, lEx, gEx]

def msEx : List (Nat × Option Nat) := [(0, some 2), (2, none), (2, some 0)]

/-! ## Category trees with children (for `get_all_descendants`)

`Category.get_all_descendants` recurses over the `children` relationship,
so for it the natural embedding is the rose tree of a category and the
subtrees it owns. -/

inductive CatTree where
  | node (name : String) (is_active : Bool) (children : List CatTree)

def CatTree.isActive : CatTree → Bool
  | .node _ a _ => a

def CatTree.children : CatTree → List CatTree
  | .node _ _ ch => ch

mutual

/-- `Category.get_all_descendants`: for each child, if it is active append
it and then its own recursive descendants; inactive children contribute
nothing at all. -/
def get_all_descendants : CatTree → List CatTree
  | .node _ _ ch => descendantsOfChildren ch

def descendantsOfChildren : List CatTree → List CatTree
  | [] => []
  | c :: rest =>
    (if c.isActive then c :: get_all_descendants c else []) ++
      descendantsOfChildren rest

end

mutual

/-- Spec-side definition: depth-first pre-order traversal that prunes an
inactive node together with its entire subtree. -/
def prunedPreorder : CatTree → List CatTree
  | .node nm a ch =>
    if a then CatTree.node nm a ch :: prunedPreorderList ch else []

def prunedPreorderList : List CatTree → List CatTree
  | [] => []
  | c :: rest => prunedPreorder c ++ prunedPreorderList rest

end

/-- `ActiveRecordMixin.deactivate` applied to the root of a subtree. -/
def deactivate : CatTree → CatTree
  | .node nm _ ch => .node nm false ch

/-! ## Dictionary (de)serialization (src/models/base.py)

Python attribute values are modelled by the dynamic type `PyVal`; equality
of `PyVal`s mirrors Python `==` on these values (values of different types,
such as a `uuid.UUID` and a `str`, are never equal).  A UUID value carries
its canonical string rendering (36 characters, lowercase hexadecimal in
8-4-4-4-12 groups), and a datetime value its `isoformat` string, so
`str(value)` is the identity on the carried string.

`uuid.UUID(s)` is modelled by `uuidParse` below, following the library:
remove every `urn:` and `uuid:` occurrence, strip braces from both ends,
drop all hyphens, require exactly 32 hexadecimal digits — raising
`ValueError` otherwise — and the resulting UUID renders as the canonical
lowercase form of those digits.  (`int(hex, 16)` is modelled as accepting
exactly hexadecimal digits; the laxer spellings Python's `int` also
tolerates, such as embedded underscores or surrounding whitespace, do not
occur in UUID data and are outside the model.) -/

inductive PyVal where
  | pynone
  | pystr (s : String)
  | pybool (b : Bool)
  | pyuuid (s : String)
  | pytime (s : String)
deriving DecidableEq

/-- The Python exceptions `from_dict` can raise. -/
inductive PyErr where
  | valueError
deriving DecidableEq

def lowHexDigits : List Char :=
  ['a', 'b', 'c', 'd', 'e', 'f',
   '0', '1', '2', '3', '4', '5', '6', '7', '8', '9']

def isLowHex (c : Char) : Bool := decide (c ∈ lowHexDigits)

def hexDigitsPy : List Char :=
  ['A', 'B', 'C', 'D', 'E', 'F', 'a', 'b', 'c', 'd', 'e', 'f',
   '0', '1', '2', '3', '4', '5', '6', '7', '8', '9']

def isHexPy (c : Char) : Bool := decide (c ∈ hexDigitsPy)

def isBraceChar (c : Char) : Bool := c == '\x7b' || c == '\x7d'

/-- `str.replace(pat, '')`: remove the non-overlapping occurrences of
`pat`, left to right.  The fuel (instantiated with the length of the list)
makes the recursion structural; one list element is consumed per step, so
the fuel never runs out. -/
def removeSubFuel (pat : List Char) : Nat → List Char → List Char
  | 0, cs => cs
  | _ + 1, [] => []
  | n + 1, c :: rest =>
    if pat.isPrefixOf (c :: rest) then
      removeSubFuel pat n ((c :: rest).drop pat.length)
    else c :: removeSubFuel pat n rest

def removeSub (pat cs : List Char) : List Char :=
  removeSubFuel pat cs.length cs

/-- `str.strip('{}')`: drop the matching characters from both ends. -/
def stripEnds (p : Char → Bool) (cs : List Char) : List Char :=
  ((cs.dropWhile p).reverse.dropWhile p).reverse

/-- The normalization steps of `uuid.UUID(hex=s)`: remove `urn:` and
`uuid:`, strip braces, remove hyphens. -/
def uuidDigits (s : String) : List Char :=
  (stripEnds isBraceChar
    (removeSub "uuid:".data (removeSub "urn:".data s.data))).filter
    (fun c => c != '-')

/-- The canonical 8-4-4-4-12 hyphenated rendering of 32 hex digits
(`str` of a `uuid.UUID`). -/
def uuidFormat (ds : List Char) : List Char :=
  ds.take 8 ++ '-' ::
    ((ds.drop 8).take 4 ++ '-' ::
      (((ds.drop 8).drop 4).take 4 ++ '-' ::
        ((((ds.drop 8).drop 4).drop 4).take 4 ++ '-' ::
          (((ds.drop 8).drop 4).drop 4).drop 4)))

/-- `uuid.UUID(s)` on the canonical-string carrier: `none` is the
`ValueError` raise, `some u` the constructed UUID value with canonical
rendering `u`. -/
def uuidParse (s : String) : Option String :=
  if (uuidDigits s).length == 32 && (uuidDigits s).all isHexPy then
    some (String.mk (uuidFormat ((uuidDigits s).map Char.toLower)))
  else none

/-- A string that is the canonical rendering of a UUID value: stripping
its hyphens leaves 32 lowercase hex digits whose canonical rendering is
the string itself. -/
def canonicalUUID (s : String) : Bool :=
  (s.data.filter (fun c => c != '-')).length == 32 &&
  (s.data.filter (fun c => c != '-')).all isLowHex &&
  s.data == uuidFormat (s.data.filter (fun c => c != '-'))

/-- A UUID value, carried as its canonical string rendering. -/
abbrev UUIDStr := {s : String // canonicalUUID s = true}

/-- Declared columns of the `categories` table (BaseModel columns, the
Category columns and the ActiveRecordMixin column). -/
def categoryColumns : List String :=
  ["id", "created_at", "updated_at", "name", "description", "parent_id",
   "is_active"]

/-- A stored `categories` row with its typed values: `id` a UUID,
timestamps datetimes, `parent_id` an optional UUID. -/
structure CategoryRec where
  id : UUIDStr
  created_at : String
  updated_at : String
  name : String
  description : Option String
  parent_id : Option UUIDStr
  is_active : Bool
deriving DecidableEq

def optStrVal : Option String → PyVal
  | none => .pynone
  | some s => .pystr s

def optUuidVal : Option String → PyVal
  | none => .pynone
  | some s => .pyuuid s

/-- `BaseModel.to_dict` with `include_relationships=False`: every column
value, with UUIDs rendered via `str` and datetimes via `isoformat`. -/
def to_dict (c : CategoryRec) : List (String × PyVal) :=
  [("id", PyVal.pystr c.id.val),
   ("created_at", PyVal.pystr c.created_at),
   ("updated_at", PyVal.pystr c.updated_at),
   ("name", PyVal.pystr c.name),
   ("description", optStrVal c.description),
   ("parent_id", optStrVal (c.parent_id.map Subtype.val)),
   ("is_active", PyVal.pybool c.is_active)]

/-- The attribute state of a freshly constructed (unflushed) instance:
attributes hold whatever dynamic values the constructor received, and
columns never set read as `None`. -/
structure CategoryObj where
  id : PyVal
  created_at : PyVal
  updated_at : PyVal
  name : PyVal
  description : PyVal
  parent_id : PyVal
  is_active : PyVal
deriving DecidableEq

def lookupVal (data : List (String × PyVal)) (k : String) : Option PyVal :=
  (data.find? (fun kv => kv.1 == k)).map (fun kv => kv.2)

/-- `BaseModel.from_dict`: keep only declared-column keys; when the `"id"`
entry is a string, convert it through `uuid.UUID`, propagating the
`ValueError` a malformed string raises; construct the instance with
exactly the surviving entries.  No other key is converted and no other
check is performed: missing fields are simply left unset. -/
def from_dict (data : List (String × PyVal)) : Except PyErr CategoryObj :=
  match lookupVal data "id" with
  | some (PyVal.pystr s) =>
    match uuidParse s with
    | none => Except.error PyErr.valueError
    | some u =>
      Except.ok
        { id := PyVal.pyuuid u
          created_at := (lookupVal data "created_at").getD PyVal.pynone
          updated_at := (lookupVal data "updated_at").getD PyVal.pynone
          name := (lookupVal data "name").getD PyVal.pynone
          description := (lookupVal data "description").getD PyVal.pynone
          parent_id := (lookupVal data "parent_id").getD PyVal.pynone
          is_active := (lookupVal data "is_active").getD PyVal.pynone }
  | some v =>
    Except.ok
      { id := v
        created_at := (lookupVal data "created_at").getD PyVal.pynone
        updated_at := (lookupVal data "updated_at").getD PyVal.pynone
        name := (lookupVal data "name").getD PyVal.pynone
        description := (lookupVal data "description").getD PyVal.pynone
        parent_id := (lookupVal data "parent_id").getD PyVal.pynone
        is_active := (lookupVal data "is_active").getD PyVal.pynone }
  | none =>
    Except.ok
      { id := PyVal.pynone
        created_at := (lookupVal data "created_at").getD PyVal.pynone
        updated_at := (lookupVal data "updated_at").getD PyVal.pynone
        name := (lookupVal data "name").getD PyVal.pynone
        description := (lookupVal data "description").getD PyVal.pynone
        parent_id := (lookupVal data "parent_id").getD PyVal.pynone
        is_active := (lookupVal data "is_active").getD PyVal.pynone }

/-- The attribute state of the original stored entity, for comparison with
a reconstructed one: typed values as Python sees them. -/
def categoryAttrs (c : CategoryRec) : CategoryObj :=
  { id := PyVal.pyuuid c.id.val
    created_at := PyVal.pytime c.created_at
    updated_at := PyVal.pytime c.updated_at
    name := PyVal.pystr c.name
    description := optStrVal c.description
    parent_id := optUuidVal (c.parent_id.map Subtype.val)
    is_active := PyVal.pybool c.is_active }

def uuidEx1 : String := "11111111-1111-1111-1111-111111111111"

def uuidEx2 : String := "22222222-2222-2222-2222-222222222222"

def cRecEx : CategoryRec :=
  { id := ⟨uuidEx1, by decide⟩
    created_at := "2024-01-01T00:00:00+00:00"
    updated_at := "2024-01-02T00:00:00+00:00"
    name := "Laptops"
    description := none
    parent_id := some ⟨uuidEx2, by decide⟩
    is_active := true }

/-! ## Supplier inventory valuation (src/models/supplier.py)

`Decimal` values are modelled by exact rationals, so the arithmetic below
is exact (no floating-point rounding). -/

structure InventoryRec where
  quantity_available : Int
deriving DecidableEq

structure ProductRec where
  is_active : Bool
  unit_cost : Option ℚ
  reorder_point : Int
  inventory : List InventoryRec

structure SupplierRec where
  products : List ProductRec

/-- Python truthiness of `product.unit_cost`: `None` and `Decimal 0` are
falsy. -/
def pyTruthyCost : Option ℚ → Bool
  | none => false
  | some c => decide (c ≠ 0)

/-- `Supplier.get_total_inventory_value`: running total over active
products with a truthy unit cost, accumulating
`Decimal(str(qty)) * unit_cost` for each inventory record with positive
available quantity. -/
def get_total_inventory_value (s : SupplierRec) : ℚ :=
  s.products.foldl
    (fun total p =>
      if p.is_active && pyTruthyCost p.unit_cost then
        p.inventory.foldl
          (fun t inv =>
            if 0 < inv.quantity_available then
              t + (inv.quantity_available : ℚ) * p.unit_cost.getD 0
            else t)
          total
      else total)
    (0 : ℚ)

/-- Spec-side definition: the sum over active products with a defined
unit cost of `unit_cost × quantity_available` across the inventory records
with positive available quantity. -/
def totalInventoryValue_spec (s : SupplierRec) : ℚ :=
  ((s.products.filter (fun p => p.is_active && p.unit_cost.isSome)).map
    (fun p =>
      ((p.inventory.filter (fun i => 0 < i.quantity_available)).map
        (fun i => (i.quantity_available : ℚ) * p.unit_cost.getD 0)).sum)).sum

def supplierEx : SupplierRec :=
  ⟨[⟨true, some 100, 10, [⟨5⟩]⟩, ⟨true, some 20, 5, [⟨50⟩]⟩]⟩

/-! ## Migration runner (src/database/connection.py)

The ledger is the list of version strings in the `schema_migrations`
table; executing a migration file either succeeds or raises, which is
abstracted into a boolean-valued outcome per file (deterministic for a
fixed set of files and database).  `run_migrations` reads the applied set
once, then walks the `*.sql` files in sorted filename order, skipping
versions already applied; a failing unit rolls back and aborts the run. -/

structure MigFile where
  name : String
  sql : String

/-- `Path.stem` of a globbed `*.sql` file: the filename without the
`.sql` extension; this is the version identifier. -/
def MigFile.stem (f : MigFile) : String := f.name.dropRight 4

def fileLE (a b : MigFile) : Prop := a.name ≤ b.name

instance : DecidableRel fileLE :=
  fun a b => inferInstanceAs (Decidable (a.name ≤ b.name))

instance : IsTotal MigFile fileLE :=
  ⟨fun a b => le_total a.name b.name⟩

instance : IsTrans MigFile fileLE :=
  ⟨fun _ _ _ h1 h2 => le_trans h1 h2⟩

/-- `sorted(migrations_dir.glob("*.sql"))`: deterministic lexicographic
filename order. -/
def sortMigrations (files : List MigFile) : List MigFile :=
  List.insertionSort fileLE files

/-- The migration loop: `applied0` is the snapshot of applied versions
read before the loop, `ledger` the current table contents.  Returns the
final ledger, the versions applied during this run (in order), and
whether the run completed without error. -/
def applyFiles (ex : MigFile → Bool) (applied0 : List String) :
    List MigFile → List String → List String × List String × Bool
  | [], ledger => (ledger, [], true)
  | f :: rest, ledger =>
    if f.stem ∈ applied0 then applyFiles ex applied0 rest ledger
    else if ex f then
      let r := applyFiles ex applied0 rest (ledger ++ [f.stem])
      (r.1, f.stem :: r.2.1, r.2.2)
    else (ledger, [], false)

/-- `DatabaseManager.run_migrations` over a given ledger state. -/
def run_migrations (ex : MigFile → Bool) (files : List MigFile)
    (ledger : List String) : List String × List String × Bool :=
  applyFiles ex ledger (sortMigrations files) ledger

def migsEx : List MigFile :=
  [⟨"002_sample_data.sql", "INSERT INTO categories VALUES (1)"⟩,
   ⟨"001_initial_schema.sql", "CREATE TABLE categories (id INT)"⟩]

/-! ### Basic lemmas about fuel-bounded chain walks -/

theorem findCat_mem {f : Forest} {i : Nat} {p : Category}
    (h : findCat f i = some p) : p ∈ f :=
  List.mem_of_find?_eq_some h

theorem findCat_id {f : Forest} {i : Nat} {p : Category}
    (h : findCat f i = some p) : p.id = i := by
  have := List.find?_some h
  simpa using this

theorem getParent_mem {f : Forest} {c p : Category}
    (h : getParent f c = some p) : p ∈ f := by
  unfold getParent at h
  cases hc : c.parentId with
  | none => rw [hc] at h; cases h
  | some pid => rw [hc] at h; exact findCat_mem h

theorem ancestorsFuel_succ_none {f : Forest} {n : Nat} {c : Category}
    (hp : getParent f c = none) : ancestorsFuel f (n + 1) c = [] := by
  simp [ancestorsFuel, hp]

theorem ancestorsFuel_succ_some {f : Forest} {n : Nat} {c p : Category}
    (hp : getParent f c = some p) :
    ancestorsFuel f (n + 1) c = p :: ancestorsFuel f n p := by
  simp [ancestorsFuel, hp]

theorem rootedFuel_succ_none {f : Forest} {n : Nat} {c : Category}
    (hp : getParent f c = none) : rootedFuel f (n + 1) c = true := by
  simp [rootedFuel, hp]

theorem rootedFuel_succ_some {f : Forest} {n : Nat} {c p : Category}
    (hp : getParent f c = some p) :
    rootedFuel f (n + 1) c = rootedFuel f n p := by
  simp [rootedFuel, hp]

theorem rootedFuel_zero {f : Forest} {c : Category} :
    rootedFuel f 0 c = (getParent f c).isNone := rfl

theorem levelFuel_succ_none {f : Forest} {n : Nat} {c : Category}
    (hp : getParent f c = none) : levelFuel f (n + 1) c = 0 := by
  simp [levelFuel, hp]

theorem levelFuel_succ_some {f : Forest} {n : Nat} {c p : Category}
    (hp : getParent f c = some p) :
    levelFuel f (n + 1) c = levelFuel f n p + 1 := by
  simp [levelFuel, hp]

theorem pathPartsFuel_succ_none {f : Forest} {n : Nat} {c : Category}
    (hp : getParent f c = none) : pathPartsFuel f (n + 1) c = [c.name] := by
  simp [pathPartsFuel, hp]

theorem pathPartsFuel_succ_some {f : Forest} {n : Nat} {c p : Category}
    (hp : getParent f c = some p) :
    pathPartsFuel f (n + 1) c = c.name :: pathPartsFuel f n p := by
  simp [pathPartsFuel, hp]

theorem rootedFuel_mono {f : Forest} :
    ∀ {n m : Nat} {c : Category}, n ≤ m → rootedFuel f n c = true →
      rootedFuel f m c = true := by
  intro n
  induction n with
  | zero =>
    intro m c _ h0
    cases m with
    | zero => exact h0
    | succ m =>
      simp only [rootedFuel] at h0 ⊢
      cases hp : getParent f c with
      | none => rfl
      | some p => rw [hp] at h0; simp [Option.isNone] at h0
  | succ n ih =>
    intro m c hnm h
    cases m with
    | zero => omega
    | succ m =>
      simp only [rootedFuel] at h ⊢
      cases hp : getParent f c with
      | none => rfl
      | some p =>
        rw [hp] at h
        exact ih (Nat.le_of_succ_le_succ hnm) h

theorem ancestorsFuel_stable {f : Forest} :
    ∀ {n m : Nat} {c : Category}, n ≤ m → rootedFuel f n c = true →
      ancestorsFuel f m c = ancestorsFuel f n c := by
  intro n
  induction n with
  | zero =>
    intro m c _ h0
    cases m with
    | zero => rfl
    | succ m =>
      simp only [rootedFuel] at h0
      simp only [ancestorsFuel]
      cases hp : getParent f c with
      | none => rfl
      | some p => rw [hp] at h0; simp [Option.isNone] at h0
  | succ n ih =>
    intro m c hnm h
    cases m with
    | zero => omega
    | succ m =>
      cases hp : getParent f c with
      | none => rw [ancestorsFuel_succ_none hp, ancestorsFuel_succ_none hp]
      | some p =>
        have h' : rootedFuel f n p = true := by
          rw [rootedFuel_succ_some hp] at h; exact h
        rw [ancestorsFuel_succ_some hp, ancestorsFuel_succ_some hp,
          ih (Nat.le_of_succ_le_succ hnm) h']

theorem ancestorsFuel_mem {f : Forest} :
    ∀ {n : Nat} {c x : Category}, x ∈ ancestorsFuel f n c → x ∈ f := by
  intro n
  induction n with
  | zero => intro c x h; simp [ancestorsFuel] at h
  | succ n ih =>
    intro c x h
    simp only [ancestorsFuel] at h
    cases hp : getParent f c with
    | none => rw [hp] at h; simp at h
    | some p =>
      rw [hp] at h
      rcases List.mem_cons.mp h with h1 | h2
      · exact h1 ▸ getParent_mem hp
      · exact ih h2

theorem rootedFuel_of_mem_ancestors {f : Forest} :
    ∀ {n : Nat} {c x : Category}, rootedFuel f n c = true →
      x ∈ ancestorsFuel f n c → rootedFuel f n x = true := by
  intro n
  induction n with
  | zero => intro c x _ h; simp [ancestorsFuel] at h
  | succ n ih =>
    intro c x hr h
    simp only [ancestorsFuel] at h
    simp only [rootedFuel] at hr
    cases hp : getParent f c with
    | none => rw [hp] at h; simp at h
    | some p =>
      rw [hp] at h hr
      rcases List.mem_cons.mp h with h1 | h2
      · subst h1
        exact rootedFuel_mono (Nat.le_succ n) hr
      · exact rootedFuel_mono (Nat.le_succ n) (ih hr h2)

theorem ancestorsFuel_length_lt {f : Forest} :
    ∀ {n : Nat} {c x : Category}, rootedFuel f n c = true →
      x ∈ ancestorsFuel f n c →
      (ancestorsFuel f n x).length < (ancestorsFuel f n c).length := by
  intro n
  induction n with
  | zero => intro c x _ h; simp [ancestorsFuel] at h
  | succ n ih =>
    intro c x hr h
    cases hp : getParent f c with
    | none => rw [ancestorsFuel_succ_none hp] at h; simp at h
    | some p =>
      have hr' : rootedFuel f n p = true := by
        rw [rootedFuel_succ_some hp] at hr; exact hr
      rw [ancestorsFuel_succ_some hp] at h ⊢
      rcases List.mem_cons.mp h with h1 | h2
      · subst h1
        rw [ancestorsFuel_stable (Nat.le_succ n) hr']
        simp
      · have hx : rootedFuel f n x = true :=
          rootedFuel_of_mem_ancestors hr' h2
        rw [ancestorsFuel_stable (Nat.le_succ n) hx]
        have := ih hr' h2
        simp only [List.length_cons]
        omega

theorem not_self_mem_ancestors {f : Forest} {n : Nat} {c : Category}
    (hr : rootedFuel f n c = true) : c ∉ ancestorsFuel f n c := by
  intro hmem
  exact absurd (ancestorsFuel_length_lt hr hmem) (lt_irrefl _)

theorem ancestorsFuel_nodup {f : Forest} :
    ∀ {n : Nat} {c : Category}, rootedFuel f n c = true →
      (ancestorsFuel f n c).Nodup := by
  intro n
  induction n with
  | zero => intro c _; simp [ancestorsFuel]
  | succ n ih =>
    intro c hr
    simp only [ancestorsFuel]
    simp only [rootedFuel] at hr
    cases hp : getParent f c with
    | none => simp
    | some p =>
      rw [hp] at hr
      exact List.nodup_cons.mpr ⟨not_self_mem_ancestors hr, ih hr⟩

theorem rootedFuel_shrink {f : Forest} :
    ∀ {n : Nat} {c : Category}, rootedFuel f n c = true →
      rootedFuel f (ancestorsFuel f n c).length c = true := by
  intro n
  induction n with
  | zero =>
    intro c h
    exact h
  | succ n ih =>
    intro c h
    cases hp : getParent f c with
    | none =>
      rw [ancestorsFuel_succ_none hp]
      simp [rootedFuel_zero, hp]
    | some p =>
      have h' : rootedFuel f n p = true := by
        rw [rootedFuel_succ_some hp] at h; exact h
      rw [ancestorsFuel_succ_some hp, List.length_cons,
        rootedFuel_succ_some hp]
      exact ih h'

theorem ancestorsFuel_length_le {f : Forest} {n : Nat} {c : Category}
    (hr : rootedFuel f n c = true) :
    (ancestorsFuel f n c).length ≤ f.length := by
  have hsub : ancestorsFuel f n c ⊆ f := fun x hx => ancestorsFuel_mem hx
  have hnd : (ancestorsFuel f n c).Nodup := ancestorsFuel_nodup hr
  exact (hnd.subperm hsub).length_le

theorem rootedFuel_full {f : Forest} {n : Nat} {c : Category}
    (hr : rootedFuel f n c = true) : rootedFuel f f.length c = true :=
  rootedFuel_mono (ancestorsFuel_length_le hr) (rootedFuel_shrink hr)

theorem levelFuel_eq_length_ancestors {f : Forest} :
    ∀ (n : Nat) (c : Category),
      levelFuel f n c = (ancestorsFuel f n c).length := by
  intro n
  induction n with
  | zero => intro c; simp [levelFuel, ancestorsFuel]
  | succ n ih =>
    intro c
    simp only [levelFuel, ancestorsFuel]
    cases hp : getParent f c with
    | none => simp
    | some p => simp [ih p]

theorem rootedFuel_of_parent_none {f : Forest} {c : Category}
    (hp : getParent f c = none) : ∀ n, rootedFuel f n c = true := by
  intro n
  cases n with
  | zero => simp [rootedFuel_zero, hp]
  | succ n => exact rootedFuel_succ_none hp

/-! ### Uniqueness of ids and lookups -/

theorem id_inj {f : Forest} (hnd : (f.map Category.id).Nodup) :
    ∀ {x y : Category}, x ∈ f → y ∈ f → x.id = y.id → x = y := by
  induction f with
  | nil => intro x y hx; simp at hx
  | cons a t ih =>
    intro x y hx hy hxy
    simp only [List.map_cons, List.nodup_cons] at hnd
    rcases List.mem_cons.mp hx with rfl | hx2
    · rcases List.mem_cons.mp hy with rfl | hy2
      · rfl
      · exact absurd (hxy ▸ List.mem_map_of_mem Category.id hy2) hnd.1
    · rcases List.mem_cons.mp hy with rfl | hy2
      · exact absurd (hxy ▸ List.mem_map_of_mem Category.id hx2) hnd.1
      · exact ih hnd.2 hx2 hy2 hxy

theorem findCat_of_mem {f : Forest} (hnd : (f.map Category.id).Nodup)
    {x : Category} (hx : x ∈ f) : findCat f x.id = some x := by
  induction f with
  | nil => simp at hx
  | cons a t ih =>
    simp only [List.map_cons, List.nodup_cons] at hnd
    by_cases h : a.id = x.id
    · have : a = x := by
        rcases List.mem_cons.mp hx with rfl | hx
        · rfl
        · exact absurd (h ▸ List.mem_map_of_mem Category.id hx) hnd.1
      subst this
      simp [findCat, List.find?_cons_of_pos]
    · have hxt : x ∈ t := by
        rcases List.mem_cons.mp hx with rfl | hx
        · exact absurd rfl h
        · exact hx
      have heq : (a.id == x.id) = false := by
        simp [h]
      unfold findCat
      rw [List.find?_cons_of_neg _ (by simp [h])]
      exact ih hnd.2 hxt

/-! ### Effect of `setParent` on lookups and chains -/

theorem updNode_id (cid : Nat) (po : Option Nat) (x : Category) :
    (updNode cid po x).id = x.id := by
  unfold updNode; split <;> rfl

theorem updNode_of_ne {cid : Nat} {po : Option Nat} {x : Category}
    (h : x.id ≠ cid) : updNode cid po x = x := by
  unfold updNode; simp [h]

theorem setParent_map_id (f : Forest) (cid : Nat) (po : Option Nat) :
    (setParent f cid po).map Category.id = f.map Category.id := by
  induction f with
  | nil => rfl
  | cons a t ih =>
    simp only [setParent, List.map_cons] at ih ⊢
    rw [updNode_id, ih]

theorem setParent_length (f : Forest) (cid : Nat) (po : Option Nat) :
    (setParent f cid po).length = f.length := by
  simp [setParent]

theorem findCat_setParent (f : Forest) (cid : Nat) (po : Option Nat) (i : Nat) :
    findCat (setParent f cid po) i = (findCat f i).map (updNode cid po) := by
  induction f with
  | nil => rfl
  | cons a t ih =>
    by_cases h : a.id = i
    · unfold setParent findCat at *
      simp only [List.map_cons]
      rw [List.find?_cons_of_pos _ (by simp [updNode_id, h]),
        List.find?_cons_of_pos _ (by simp [h])]
      rfl
    · unfold setParent findCat at *
      simp only [List.map_cons]
      rw [List.find?_cons_of_neg _ (by simp [updNode_id, h]),
        List.find?_cons_of_neg _ (by simp [h])]
      exact ih

theorem getParent_setParent (f : Forest) (cid : Nat) (po : Option Nat)
    (y : Category) :
    getParent (setParent f cid po) y = (getParent f y).map (updNode cid po) := by
  unfold getParent
  cases y.parentId with
  | none => rfl
  | some pid => exact findCat_setParent f cid po pid

/-- Chains that never pass through the moved node are unaffected. -/
theorem rootedFuel_setParent_away {f : Forest} {c : Category} {po : Option Nat}
    (hnd : (f.map Category.id).Nodup) (hc : c ∈ f) :
    ∀ {n : Nat} {y : Category}, c ∉ ancestorsFuel f n y →
      rootedFuel f n y = true → rootedFuel (setParent f c.id po) n y = true := by
  intro n
  induction n with
  | zero =>
    intro y _ hr
    rw [rootedFuel_zero, getParent_setParent]
    rw [rootedFuel_zero] at hr
    cases hp : getParent f y with
    | none => rfl
    | some p => rw [hp] at hr; simp at hr
  | succ n ih =>
    intro y hanc hr
    cases hp : getParent f y with
    | none =>
      apply rootedFuel_succ_none
      rw [getParent_setParent, hp]; rfl
    | some p =>
      rw [ancestorsFuel_succ_some hp] at hanc
      have hcp : c ≠ p := fun h => hanc (h ▸ List.mem_cons_self _ _)
      have hanc' : c ∉ ancestorsFuel f n p := fun h =>
        hanc (List.mem_cons_of_mem _ h)
      have hpmem : p ∈ f := getParent_mem hp
      have hpid : p.id ≠ c.id := fun h =>
        hcp (id_inj hnd hc hpmem h.symm)
      have hr' : rootedFuel f n p = true := by
        rw [rootedFuel_succ_some hp] at hr; exact hr
      have hp' : getParent (setParent f c.id po) y = some p := by
        rw [getParent_setParent, hp]
        simp [updNode_of_ne hpid]
      rw [rootedFuel_succ_some hp']
      exact ih hanc' hr'

/-- Chains that do pass through the moved node terminate once the moved
node's new chain does. -/
theorem rootedFuel_setParent_reach {f : Forest} {c : Category} {po : Option Nat}
    (hnd : (f.map Category.id).Nodup) (hc : c ∈ f) {m : Nat}
    (hcroot : rootedFuel (setParent f c.id po) m (updNode c.id po c) = true) :
    ∀ {n : Nat} {y : Category}, c ∈ ancestorsFuel f n y →
      rootedFuel (setParent f c.id po) (n + m) y = true := by
  intro n
  induction n with
  | zero => intro y h; simp [ancestorsFuel] at h
  | succ n ih =>
    intro y h
    cases hp : getParent f y with
    | none => rw [ancestorsFuel_succ_none hp] at h; simp at h
    | some p =>
      rw [show n + 1 + m = n + m + 1 by omega]
      by_cases hpc : p = c
      · subst hpc
        have hp' : getParent (setParent f p.id po) y = some (updNode p.id po p) := by
          rw [getParent_setParent, hp]; rfl
        rw [rootedFuel_succ_some hp']
        exact rootedFuel_mono (Nat.le_add_left m n) hcroot
      · rw [ancestorsFuel_succ_some hp] at h
        have h' : c ∈ ancestorsFuel f n p := by
          rcases List.mem_cons.mp h with h1 | h2
          · exact absurd h1.symm hpc
          · exact h2
        have hpid : p.id ≠ c.id := fun hid =>
          hpc (id_inj hnd (getParent_mem hp) hc hid)
        have hp' : getParent (setParent f c.id po) y = some p := by
          rw [getParent_setParent, hp]
          simp [updNode_of_ne hpid]
        rw [rootedFuel_succ_some hp']
        exact ih h'

/-- `can_be_parent_of` decoded: true exactly when the candidate child is
neither the node itself nor one of its current ancestors. -/
theorem can_be_parent_of_iff (f : Forest) (self x : Category) :
    can_be_parent_of f self x = true ↔
      x ≠ self ∧ x ∉ get_all_ancestors f self := by
  unfold can_be_parent_of
  by_cases h : x = self
  · simp [h]
  · simp [h]

theorem wf_setParent {f : Forest} (hwf : WfForest f) {cid : Nat}
    {po : Option Nat} (hpo : po = none ∨ ∃ q ∈ f, some q.id = po) :
    WfForest (setParent f cid po) := by
  obtain ⟨hnd, hres⟩ := hwf
  constructor
  · rw [setParent_map_id]; exact hnd
  · intro x' hx' pid hpid
    obtain ⟨x, hx, rfl⟩ := List.mem_map.mp hx'
    by_cases hxc : x.id = cid
    · have hpar : (updNode cid po x).parentId = po := by
        unfold updNode; simp [hxc]
      rw [hpar] at hpid
      rcases hpo with h0 | ⟨q, hq, hq2⟩
      · rw [h0] at hpid; cases hpid
      · rw [← hq2] at hpid
        injection hpid with h
        exact ⟨updNode cid po q, List.mem_map_of_mem _ hq,
          by rw [updNode_id]; exact h⟩
    · rw [updNode_of_ne hxc] at hpid
      obtain ⟨q, hq, hq2⟩ := hres x hx pid hpid
      exact ⟨updNode cid po q, List.mem_map_of_mem _ hq, by rw [updNode_id]; exact hq2⟩

theorem acyclic_setParent {f : Forest} {c : Category} {po : Option Nat}
    (hnd : (f.map Category.id).Nodup) (hc : c ∈ f) (hac : Acyclic f)
    (hcroot : ∃ m, rootedFuel (setParent f c.id po) m (updNode c.id po c) = true) :
    Acyclic (setParent f c.id po) := by
  intro x' hx'
  obtain ⟨x, hx, rfl⟩ := List.mem_map.mp hx'
  by_cases hxc : x.id = c.id
  · have : x = c := id_inj hnd hx hc hxc
    subst this
    obtain ⟨m, hm⟩ := hcroot
    exact rootedFuel_full hm
  · rw [updNode_of_ne hxc]
    by_cases hreach : c ∈ ancestorsFuel f f.length x
    · obtain ⟨m, hm⟩ := hcroot
      exact rootedFuel_full (rootedFuel_setParent_reach hnd hc hm hreach)
    · exact rootedFuel_full
        (rootedFuel_setParent_away hnd hc hreach (hac x hx))

theorem detach_case {f : Forest} {c : Category} (hwf : WfForest f)
    (hac : Acyclic f) (hc : c ∈ f) :
    WfForest (setParent f c.id none) ∧ Acyclic (setParent f c.id none) := by
  have hroot : getParent (setParent f c.id none) (updNode c.id none c) = none := by
    have h1 : (updNode c.id none c).parentId = none := by
      unfold updNode; simp
    unfold getParent
    rw [h1]
  exact ⟨wf_setParent hwf (Or.inl rfl),
    acyclic_setParent hwf.1 hc hac ⟨0, rootedFuel_of_parent_none hroot 0⟩⟩

theorem attach_case {f : Forest} {c p : Category} (hwf : WfForest f)
    (hac : Acyclic f) (hc : c ∈ f) (hp : p ∈ f)
    (hcan : can_be_parent_of f p c = true) :
    WfForest (setParent f c.id (some p.id)) ∧
      Acyclic (setParent f c.id (some p.id)) := by
  obtain ⟨hne, hnanc⟩ := (can_be_parent_of_iff f p c).mp hcan
  have hpid : p.id ≠ c.id := fun hid => hne (id_inj hwf.1 hc hp hid.symm)
  refine ⟨wf_setParent hwf (Or.inr ⟨p, hp, rfl⟩), ?_⟩
  apply acyclic_setParent hwf.1 hc hac
  refine ⟨f.length + 1, ?_⟩
  have hcpar : getParent (setParent f c.id (some p.id))
      (updNode c.id (some p.id) c) = some p := by
    have h1 : (updNode c.id (some p.id) c).parentId = some p.id := by
      unfold updNode; simp
    unfold getParent
    rw [h1]
    show findCat (setParent f c.id (some p.id)) p.id = some p
    rw [findCat_setParent, findCat_of_mem hwf.1 hp]
    simp [updNode_of_ne hpid]
  rw [rootedFuel_succ_some hcpar]
  exact rootedFuel_setParent_away hwf.1 hc hnanc (hac p hp)

theorem moveById_preserves (f : Forest) (cid : Nat) (po : Option Nat)
    (hwf : WfForest f) (hac : Acyclic f) :
    WfForest (moveById f cid po).1 ∧ Acyclic (moveById f cid po).1 := by
  cases hfind : findCat f cid with
  | none =>
    have h : moveById f cid po = (f, false) := by
      simp [moveById, hfind]
    rw [h]
    exact ⟨hwf, hac⟩
  | some c =>
    have hc : c ∈ f := findCat_mem hfind
    cases po with
    | none =>
      have h : moveById f cid none = (setParent f c.id none, true) := by
        simp [moveById, hfind, move_to_parent]
      rw [h]
      exact detach_case hwf hac hc
    | some i =>
      cases hpfind : findCat f i with
      | none =>
        have h : moveById f cid (some i) = (f, false) := by
          simp [moveById, hfind, hpfind]
        rw [h]
        exact ⟨hwf, hac⟩
      | some p =>
        have hp : p ∈ f := findCat_mem hpfind
        by_cases hcan : can_be_parent_of f p c = true
        · have h : moveById f cid (some i) = (setParent f c.id (some p.id), true) := by
            simp [moveById, hfind, hpfind, move_to_parent, hcan]
          rw [h]
          exact attach_case hwf hac hc hp hcan
        · have h : moveById f cid (some i) = (f, false) := by
            simp [moveById, hfind, hpfind, move_to_parent, hcan]
          rw [h]
          exact ⟨hwf, hac⟩

theorem applyMoves_preserves (f : Forest) (ms : List (Nat × Option Nat))
    (hwf : WfForest f) (hac : Acyclic f) :
    WfForest (applyMoves f ms) ∧ Acyclic (applyMoves f ms) := by
  induction ms generalizing f with
  | nil => exact ⟨hwf, hac⟩
  | cons m t ih =>
    have h := moveById_preserves f m.1 m.2 hwf hac
    exact ih _ h.1 h.2

theorem le_foldr_max {a : Nat} : ∀ {l : List Nat}, a ∈ l → a ≤ l.foldr max 0 := by
  intro l
  induction l with
  | nil => intro h; simp at h
  | cons b t ih =>
    intro h
    rcases List.mem_cons.mp h with rfl | h
    · exact le_max_left _ _
    · exact le_trans (ih h) (le_max_right _ _)

theorem level_le_forestDepth {f : Forest} {c : Category} (hc : c ∈ f) :
    level f c ≤ forestDepth f :=
  le_foldr_max (List.mem_map_of_mem _ hc)

theorem pathPartsFuel_of_parent_none {f : Forest} {c : Category}
    (hp : getParent f c = none) : ∀ n, pathPartsFuel f n c = [c.name] := by
  intro n
  cases n with
  | zero => rfl
  | succ n => exact pathPartsFuel_succ_none hp

theorem intercalate_singleton (s a : String) : s.intercalate [a] = a := by
  simp [String.intercalate]
  rfl

theorem move_to_parent_none_eq (f : Forest) (c : Category) :
    move_to_parent f c none = (setParent f c.id none, true) := rfl

theorem move_to_parent_some_eq (f : Forest) (c p : Category) :
    move_to_parent f c (some p) =
      if can_be_parent_of f p c = true then
        (setParent f c.id (some p.id), true)
      else (f, false) := rfl

theorem pathPartsFuel_length {f : Forest} :
    ∀ (n : Nat) (c : Category),
      (pathPartsFuel f n c).length = levelFuel f n c + 1 := by
  intro n
  induction n with
  | zero => intro c; simp [pathPartsFuel, levelFuel]
  | succ n ih =>
    intro c
    cases hp : getParent f c with
    | none => rw [pathPartsFuel_succ_none hp, levelFuel_succ_none hp]; rfl
    | some p =>
      rw [pathPartsFuel_succ_some hp, levelFuel_succ_some hp]
      simp [ih p]

/-! ## Claim theorems for the category hierarchy -/

/-- C1: for every well-formed category forest whose parent links are
acyclic, after any sequence of `move_to_parent` calls the parent links
remain acyclic: walking parent links from any node reaches a root within
`f.length` steps and even within the forest's actual depth, and no
category is ever its own ancestor. -/
theorem C1_moves_preserve_acyclicity (f : Forest)
    (ms : List (Nat × Option Nat)) (hwf : WfForest f) (hac : Acyclic f) :
    Acyclic (applyMoves f ms) ∧
    (∀ c ∈ applyMoves f ms,
      rootedFuel (applyMoves f ms) (forestDepth (applyMoves f ms)) c = true) ∧
    (∀ c ∈ applyMoves f ms, c ∉ get_all_ancestors (applyMoves f ms) c) := by
  obtain ⟨hwf2, hac2⟩ := applyMoves_preserves f ms hwf hac
  refine ⟨hac2, ?_, ?_⟩
  · intro c hcmem
    have hr := hac2 c hcmem
    have h1 : rootedFuel (applyMoves f ms) (level (applyMoves f ms) c) c = true := by
      unfold level
      rw [levelFuel_eq_length_ancestors]
      exact rootedFuel_shrink hr
    exact rootedFuel_mono (level_le_forestDepth hcmem) h1
  · intro c hcmem
    exact not_self_mem_ancestors (hac2 c hcmem)

theorem C1_witness :
    (WfForest fEx ∧ Acyclic fEx) ∧
      (Acyclic (applyMoves fEx msEx) ∧
       (∀ c ∈ applyMoves fEx msEx,
         rootedFuel (applyMoves fEx msEx)
           (forestDepth (applyMoves fEx msEx)) c = true) ∧
       (∀ c ∈ applyMoves fEx msEx,
         c ∉ get_all_ancestors (applyMoves fEx msEx) c)) :=
  ⟨⟨by decide, by decide⟩,
    C1_moves_preserve_acyclicity fEx msEx (by decide) (by decide)⟩

/-- C2: `can_be_parent_of` answers true exactly when the candidate child
is neither the node itself nor one of its current ancestors (so it is
false on the node itself and false on every current ancestor). -/
theorem C2_can_be_parent_of_cases (f : Forest) (self x : Category) :
    can_be_parent_of f self x = true ↔
      x ≠ self ∧ x ∉ get_all_ancestors f self :=
  can_be_parent_of_iff f self x

/-- C3: `move_to_parent` with `None` detaches to root and always returns
true; with a candidate parent it returns exactly `can_be_parent_of`'s
verdict, rewiring `parent_id` on success and leaving the forest unchanged
on failure; in particular moving a node under itself or under a node it is
an ancestor of (i.e. one of its descendants) fails with the forest
unchanged.  The operation is a total function: it never raises. -/
theorem C3_move_to_parent_behavior (f : Forest) (c p : Category)
    (hwf : WfForest f) (hc : c ∈ f) :
    ((move_to_parent f c none).2 = true ∧
     findCat (move_to_parent f c none).1 c.id =
       some { c with parentId := none }) ∧
    ((move_to_parent f c (some p)).2 = can_be_parent_of f p c) ∧
    (can_be_parent_of f p c = true →
      findCat (move_to_parent f c (some p)).1 c.id =
        some { c with parentId := some p.id }) ∧
    (can_be_parent_of f p c = false →
      move_to_parent f c (some p) = (f, false)) ∧
    ((c = p ∨ c ∈ get_all_ancestors f p) →
      move_to_parent f c (some p) = (f, false)) := by
  have hupd : ∀ po : Option Nat, updNode c.id po c = { c with parentId := po } := by
    intro po; unfold updNode; simp
  have hfind : ∀ po : Option Nat,
      findCat (setParent f c.id po) c.id = some { c with parentId := po } := by
    intro po
    rw [findCat_setParent, findCat_of_mem hwf.1 hc]
    simp [hupd]
  refine ⟨⟨rfl, hfind none⟩, ?_, ?_, ?_, ?_⟩
  · rw [move_to_parent_some_eq]
    by_cases h : can_be_parent_of f p c = true
    · rw [if_pos h, h]
    · rw [if_neg h]
      simp [Bool.not_eq_true] at h
      rw [h]
  · intro h
    rw [move_to_parent_some_eq, if_pos h]
    exact hfind (some p.id)
  · intro h
    rw [move_to_parent_some_eq, if_neg (by rw [h]; exact Bool.false_ne_true)]
  · intro h
    have hfalse : can_be_parent_of f p c = false := by
      rcases Bool.eq_false_or_eq_true (can_be_parent_of f p c) with h0 | h1
      · obtain ⟨hne, hnanc⟩ := (can_be_parent_of_iff f p c).mp h0
        rcases h with h | h
        · exact absurd h hne
        · exact absurd h hnanc
      · exact h1
    rw [move_to_parent_some_eq,
      if_neg (by rw [hfalse]; exact Bool.false_ne_true)]

theorem C3_witness :
    (WfForest fEx ∧ eEx ∈ fEx) ∧
      (((move_to_parent fEx eEx none).2 = true ∧
        findCat (move_to_parent fEx eEx none).1 eEx.id =
          some { eEx with parentId := none }) ∧
       ((move_to_parent fEx eEx (some gEx)).2 = can_be_parent_of fEx gEx eEx) ∧
       (can_be_parent_of fEx gEx eEx = true →
         findCat (move_to_parent fEx eEx (some gEx)).1 eEx.id =
           some { eEx with parentId := some gEx.id }) ∧
       (can_be_parent_of fEx gEx eEx = false →
         move_to_parent fEx eEx (some gEx) = (fEx, false)) ∧
       ((eEx = gEx ∨ eEx ∈ get_all_ancestors fEx gEx) →
         move_to_parent fEx eEx (some gEx) = (fEx, false))) :=
  ⟨⟨by decide, by decide⟩,
    C3_move_to_parent_behavior fEx eEx gEx (by decide) (by decide)⟩

/-- C7: on a rooted chain, the full path of a root is its own name; in
general the full path joins the `pathParts` names root-to-leaf with a
separator, the number of segments is the node's level plus one, and the
level counts the ancestors; in the Electronics scenario the grandchild's
path is the three names joined and its level is 2. -/
theorem C7_full_path_level (f : Forest) (c : Category)
    (_hr : rootedFuel f f.length c = true) :
    (c.parentId = none → full_path f c = c.name) ∧
    (pathPartsFuel f f.length c).length = level f c + 1 ∧
    level f c = (get_all_ancestors f c).length ∧
    full_path fEx gEx = "Electronics > Laptops > Gaming Laptops" ∧
    level fEx gEx = 2 := by
  refine ⟨?_, ?_, ?_, by decide, by decide⟩
  · intro hroot
    have hp : getParent f c = none := by
      unfold getParent; rw [hroot]
    unfold full_path
    rw [pathPartsFuel_of_parent_none hp]
    simp [intercalate_singleton]
  · exact pathPartsFuel_length f.length c
  · unfold level get_all_ancestors
    exact levelFuel_eq_length_ancestors f.length c

theorem C7_witness :
    rootedFuel fEx fEx.length gEx = true ∧
      ((gEx.parentId = none → full_path fEx gEx = gEx.name) ∧
       (pathPartsFuel fEx fEx.length gEx).length = level fEx gEx + 1 ∧
       level fEx gEx = (get_all_ancestors fEx gEx).length ∧
       full_path fEx gEx = "Electronics > Laptops > Gaming Laptops" ∧
       level fEx gEx = 2) :=
  ⟨by decide, C7_full_path_level fEx gEx (by decide)⟩

/-- C10: for a category whose parent chain terminates at a root, `level`
equals the length of `get_all_ancestors` — both walk the same chain. -/
theorem C10_level_eq_ancestor_count (f : Forest) (c : Category)
    (_hr : rootedFuel f f.length c = true) :
    level f c = (get_all_ancestors f c).length := by
  unfold level get_all_ancestors
  exact levelFuel_eq_length_ancestors f.length c

theorem C10_witness :
    rootedFuel fEx fEx.length gEx = true ∧
      level fEx gEx = (get_all_ancestors fEx gEx).length :=
  ⟨by decide, C10_level_eq_ancestor_count fEx gEx (by decide)⟩

/-! ## Claim theorems for the descendants traversal -/

theorem descendantsOfChildren_append (l₁ l₂ : List CatTree) :
    descendantsOfChildren (l₁ ++ l₂) =
      descendantsOfChildren l₁ ++ descendantsOfChildren l₂ := by
  induction l₁ with
  | nil => simp [descendantsOfChildren]
  | cons c rest ih =>
    simp [descendantsOfChildren, ih, List.append_assoc]

theorem descendantsOfChildren_eq_pruned :
    ∀ (n : Nat) (l : List CatTree), sizeOf l ≤ n →
      descendantsOfChildren l = prunedPreorderList l := by
  intro n
  induction n with
  | zero =>
    intro l h
    cases l with
    | nil => rfl
    | cons c rest =>
      simp only [List.cons.sizeOf_spec] at h
      omega
  | succ n ih =>
    intro l h
    cases l with
    | nil => rfl
    | cons c rest =>
      cases c with
      | node nm a ch =>
        have hsz : sizeOf ch ≤ n ∧ sizeOf rest ≤ n := by
          simp only [List.cons.sizeOf_spec, CatTree.node.sizeOf_spec] at h
          omega
        cases a with
        | true =>
          simp only [descendantsOfChildren, prunedPreorderList, prunedPreorder,
            get_all_descendants, CatTree.isActive, if_true]
          rw [ih ch hsz.1, ih rest hsz.2]
        | false =>
          simp only [descendantsOfChildren, prunedPreorderList, prunedPreorder,
            get_all_descendants, CatTree.isActive, Bool.false_eq_true,
            if_false]
          rw [ih rest hsz.2]

theorem get_all_descendants_eq_pruned (t : CatTree) :
    get_all_descendants t = prunedPreorderList t.children := by
  cases t with
  | node nm a ch =>
    simp only [get_all_descendants, CatTree.children]
    exact descendantsOfChildren_eq_pruned (sizeOf ch) ch le_rfl

/-- C6: `get_all_descendants` is exactly the depth-first pre-order
traversal of the children subtrees pruned at inactive nodes: an inactive
node contributes nothing, not even its active descendants, and
deactivating a child removes it and its whole subtree from its parent's
traversal result. -/
theorem C6_descendants_pruned_preorder :
    (∀ t : CatTree, get_all_descendants t = prunedPreorderList t.children) ∧
    (∀ (nm : String) (a : Bool) (l₁ l₂ : List CatTree) (c : CatTree),
      get_all_descendants (CatTree.node nm a (l₁ ++ deactivate c :: l₂)) =
        get_all_descendants (CatTree.node nm a (l₁ ++ l₂))) ∧
    (∀ (nm : String) (ch : List CatTree),
      prunedPreorder (CatTree.node nm false ch) = []) := by
  refine ⟨get_all_descendants_eq_pruned, ?_, ?_⟩
  · intro nm a l₁ l₂ c
    simp only [get_all_descendants]
    rw [descendantsOfChildren_append, descendantsOfChildren_append]
    congr 1
    cases c with
    | node n2 a2 ch2 =>
      simp [deactivate, descendantsOfChildren, CatTree.isActive]
  · intro nm ch
    simp [prunedPreorder]

/-! ## Lemmas about the uuid model -/

theorem removeSubFuel_no_match {p0 : Char} {pt : List Char} :
    ∀ (n : Nat) (cs : List Char), (∀ c ∈ cs, c ≠ p0) →
      removeSubFuel (p0 :: pt) n cs = cs := by
  intro n
  induction n with
  | zero => intro cs _; rfl
  | succ n ih =>
    intro cs h
    cases cs with
    | nil => rfl
    | cons c rest =>
      have hc : c ≠ p0 := h c (List.mem_cons_self _ _)
      have hbeq : (p0 == c) = false :=
        beq_eq_false_iff_ne.mpr (fun he => hc he.symm)
      have hpre : (p0 :: pt).isPrefixOf (c :: rest) = false := by
        simp [List.isPrefixOf, hbeq]
      simp only [removeSubFuel, hpre, Bool.false_eq_true, if_false]
      rw [ih rest (fun x hx => h x (List.mem_cons_of_mem _ hx))]

theorem removeSubFuel_urn {n : Nat} {cs : List Char}
    (h : ∀ c ∈ cs, c ≠ 'u') : removeSubFuel "urn:".data n cs = cs := by
  have hd : "urn:".data = 'u' :: ['r', 'n', ':'] := rfl
  rw [hd]
  exact removeSubFuel_no_match n cs h

theorem removeSubFuel_uuid {n : Nat} {cs : List Char}
    (h : ∀ c ∈ cs, c ≠ 'u') : removeSubFuel "uuid:".data n cs = cs := by
  have hd : "uuid:".data = 'u' :: ['u', 'i', 'd', ':'] := rfl
  rw [hd]
  exact removeSubFuel_no_match n cs h

theorem dropWhile_eq_self_of_none {p : Char → Bool} {cs : List Char}
    (h : ∀ c ∈ cs, p c = false) : cs.dropWhile p = cs := by
  cases cs with
  | nil => rfl
  | cons c rest =>
    simp [List.dropWhile_cons, h c (List.mem_cons_self _ _)]

theorem stripEnds_eq_self {p : Char → Bool} {cs : List Char}
    (h : ∀ c ∈ cs, p c = false) : stripEnds p cs = cs := by
  unfold stripEnds
  rw [dropWhile_eq_self_of_none h,
    dropWhile_eq_self_of_none (fun c hc => h c (List.mem_reverse.mp hc)),
    List.reverse_reverse]

theorem toLower_of_lowHex {c : Char} (h : isLowHex c = true) :
    c.toLower = c := by
  have hmem : c ∈ lowHexDigits := of_decide_eq_true h
  fin_cases hmem <;> decide

theorem hexPy_of_lowHex {c : Char} (h : isLowHex c = true) :
    isHexPy c = true := by
  have hmem : c ∈ lowHexDigits := of_decide_eq_true h
  fin_cases hmem <;> decide

theorem ne_u_of_lowHex {c : Char} (h : isLowHex c = true) : c ≠ 'u' := by
  have hmem : c ∈ lowHexDigits := of_decide_eq_true h
  fin_cases hmem <;> decide

theorem brace_false_of_lowHex {c : Char} (h : isLowHex c = true) :
    isBraceChar c = false := by
  have hmem : c ∈ lowHexDigits := of_decide_eq_true h
  fin_cases hmem <;> decide

theorem mem_uuidFormat {c : Char} {ds : List Char}
    (h : c ∈ uuidFormat ds) : c = '-' ∨ c ∈ ds := by
  simp only [uuidFormat, List.mem_append, List.mem_cons] at h
  rcases h with h | rfl | h | rfl | h | rfl | h | rfl | h
  · exact Or.inr (List.take_subset _ _ h)
  · exact Or.inl rfl
  · exact Or.inr (List.drop_subset _ _ (List.take_subset _ _ h))
  · exact Or.inl rfl
  · exact Or.inr
      (List.drop_subset _ _ (List.drop_subset _ _ (List.take_subset _ _ h)))
  · exact Or.inl rfl
  · exact Or.inr (List.drop_subset _ _
      (List.drop_subset _ _ (List.drop_subset _ _ (List.take_subset _ _ h))))
  · exact Or.inl rfl
  · exact Or.inr (List.drop_subset _ _
      (List.drop_subset _ _ (List.drop_subset _ _ (List.drop_subset _ _ h))))

/-- Re-rendering a canonical string's own digits gives the string back. -/
theorem uuidParse_canonical {s : String} (h : canonicalUUID s = true) :
    uuidParse s = some s := by
  unfold canonicalUUID at h
  simp only [Bool.and_eq_true, beq_iff_eq] at h
  obtain ⟨⟨h1, h2⟩, h3⟩ := h
  have hall : ∀ c ∈ s.data.filter (fun c => c != '-'), isLowHex c = true :=
    fun c hc => List.all_eq_true.mp h2 c hc
  have hchars : ∀ c ∈ s.data, c = '-' ∨ isLowHex c = true := by
    intro c hc
    rw [h3] at hc
    rcases mem_uuidFormat hc with hh | hh
    · exact Or.inl hh
    · exact Or.inr (hall c hh)
  have hne_u : ∀ c ∈ s.data, c ≠ 'u' := by
    intro c hc
    rcases hchars c hc with rfl | hl
    · decide
    · exact ne_u_of_lowHex hl
  have hnob : ∀ c ∈ s.data, isBraceChar c = false := by
    intro c hc
    rcases hchars c hc with rfl | hl
    · decide
    · exact brace_false_of_lowHex hl
  have hdig : uuidDigits s = s.data.filter (fun c => c != '-') := by
    unfold uuidDigits removeSub
    rw [removeSubFuel_urn hne_u, removeSubFuel_uuid hne_u,
      stripEnds_eq_self hnob]
  have hmap : (s.data.filter (fun c => c != '-')).map Char.toLower =
      s.data.filter (fun c => c != '-') := by
    have hcong : ∀ c ∈ s.data.filter (fun c => c != '-'),
        Char.toLower c = id c := fun c hc => toLower_of_lowHex (hall c hc)
    rw [List.map_congr_left hcong, List.map_id]
  have hhex : (s.data.filter (fun c => c != '-')).all isHexPy = true :=
    List.all_eq_true.mpr (fun c hc => hexPy_of_lowHex (hall c hc))
  unfold uuidParse
  rw [hdig, if_pos (by simp [h1, hhex]), hmap, ← h3]

/-! ## Claim theorems for dictionary (de)serialization -/

/-- C4 counterexample: for the concrete stored category `cRecEx`, whose
`parent_id` is a UUID, `from_dict (to_dict _)` rebuilds an entity that
holds the rendered string in `parent_id`, which is not equal (as a
Python value) to the original UUID value. -/
theorem C4_counterexample :
    from_dict (to_dict cRecEx) =
      Except.ok
        { id := PyVal.pyuuid uuidEx1
          created_at := PyVal.pystr "2024-01-01T00:00:00+00:00"
          updated_at := PyVal.pystr "2024-01-02T00:00:00+00:00"
          name := PyVal.pystr "Laptops"
          description := PyVal.pynone
          parent_id := PyVal.pystr uuidEx2
          is_active := PyVal.pybool true } ∧
    PyVal.pystr uuidEx2 ≠ (categoryAttrs cRecEx).parent_id :=
  ⟨rfl, by decide⟩

theorem from_dict_id_str {data : List (String × PyVal)} {s : String}
    (h : lookupVal data "id" = some (PyVal.pystr s)) :
    from_dict data =
      match uuidParse s with
      | none => Except.error PyErr.valueError
      | some u =>
        Except.ok
          { id := PyVal.pyuuid u
            created_at := (lookupVal data "created_at").getD PyVal.pynone
            updated_at := (lookupVal data "updated_at").getD PyVal.pynone
            name := (lookupVal data "name").getD PyVal.pynone
            description := (lookupVal data "description").getD PyVal.pynone
            parent_id := (lookupVal data "parent_id").getD PyVal.pynone
            is_active := (lookupVal data "is_active").getD PyVal.pynone } := by
  unfold from_dict
  rw [h]

/-- C4 (amended): the `to_dict` then `from_dict` round trip restores `id`
as a UUID equal to the original and preserves `name`, `description` and
`is_active` exactly, but `created_at`, `updated_at` and `parent_id` come
back as the rendered strings (only the `"id"` key is converted back). -/
theorem C4_roundtrip_amended (c : CategoryRec) :
    from_dict (to_dict c) =
      Except.ok
        { id := PyVal.pyuuid c.id.val
          created_at := PyVal.pystr c.created_at
          updated_at := PyVal.pystr c.updated_at
          name := PyVal.pystr c.name
          description := optStrVal c.description
          parent_id := optStrVal (c.parent_id.map Subtype.val)
          is_active := PyVal.pybool c.is_active } := by
  have hlook : lookupVal (to_dict c) "id" = some (PyVal.pystr c.id.val) := rfl
  rw [from_dict_id_str hlook, uuidParse_canonical c.id.property]
  rfl

theorem lookupVal_cons_ne {k k2 : String} {v : PyVal}
    {data : List (String × PyVal)} (h : k ≠ k2) :
    lookupVal ((k, v) :: data) k2 = lookupVal data k2 := by
  unfold lookupVal
  rw [List.find?_cons_of_neg _ (by simp [h])]

/-- C5 counterexample: the mapping `{}` lacks the required field `name`
(and every other required column), yet `from_dict` raises nothing: it
returns an entity whose every attribute is `None`. -/
theorem C5_counterexample :
    from_dict [] =
      Except.ok
        { id := PyVal.pynone, created_at := PyVal.pynone,
          updated_at := PyVal.pynone, name := PyVal.pynone,
          description := PyVal.pynone, parent_id := PyVal.pynone,
          is_active := PyVal.pynone } := rfl

/-- C5 (amended): `from_dict` uses only declared-column keys (an entry
with an unknown key is silently dropped); of the string-form values only
the `"id"` entry is converted to a UUID value, and a malformed id string
fails with `ValueError` (not `ValidationError`) — the only coercion and
the only failure; a required field absent from the mapping raises
nothing: the entity is constructed with those attributes unset (`None`). -/
theorem C5_from_dict_amended :
    (∀ (k : String) (v : PyVal) (data : List (String × PyVal)),
      k ∉ categoryColumns → from_dict ((k, v) :: data) = from_dict data) ∧
    (∀ (data : List (String × PyVal)) (s : String),
      lookupVal data "id" = some (PyVal.pystr s) → canonicalUUID s = true →
        from_dict data =
          Except.ok
            { id := PyVal.pyuuid s
              created_at := (lookupVal data "created_at").getD PyVal.pynone
              updated_at := (lookupVal data "updated_at").getD PyVal.pynone
              name := (lookupVal data "name").getD PyVal.pynone
              description := (lookupVal data "description").getD PyVal.pynone
              parent_id := (lookupVal data "parent_id").getD PyVal.pynone
              is_active := (lookupVal data "is_active").getD PyVal.pynone }) ∧
    (∀ (data : List (String × PyVal)) (s : String),
      lookupVal data "id" = some (PyVal.pystr s) → uuidParse s = none →
        from_dict data = Except.error PyErr.valueError) ∧
    from_dict [] =
      Except.ok
        { id := PyVal.pynone, created_at := PyVal.pynone,
          updated_at := PyVal.pynone, name := PyVal.pynone,
          description := PyVal.pynone, parent_id := PyVal.pynone,
          is_active := PyVal.pynone } := by
  refine ⟨?_, ?_, ?_, rfl⟩
  · intro k v data hk
    simp only [categoryColumns, List.mem_cons, List.not_mem_nil, or_false] at hk
    push_neg at hk
    obtain ⟨h1, h2, h3, h4, h5, h6, h7⟩ := hk
    simp only [from_dict, lookupVal_cons_ne h1, lookupVal_cons_ne h2,
      lookupVal_cons_ne h3, lookupVal_cons_ne h4, lookupVal_cons_ne h5,
      lookupVal_cons_ne h6, lookupVal_cons_ne h7]
  · intro data s h hcanon
    rw [from_dict_id_str h, uuidParse_canonical hcanon]
  · intro data s h hbad
    rw [from_dict_id_str h, hbad]

theorem C5_witness :
    ("color" ∉ categoryColumns ∧
      from_dict [("color", PyVal.pystr "red")] = from_dict []) ∧
    (lookupVal [("id", PyVal.pystr uuidEx1)] "id" =
        some (PyVal.pystr uuidEx1) ∧
      canonicalUUID uuidEx1 = true ∧
      from_dict [("id", PyVal.pystr uuidEx1)] =
        Except.ok
          { id := PyVal.pyuuid uuidEx1, created_at := PyVal.pynone,
            updated_at := PyVal.pynone, name := PyVal.pynone,
            description := PyVal.pynone, parent_id := PyVal.pynone,
            is_active := PyVal.pynone }) ∧
    (lookupVal [("id", PyVal.pystr "ab")] "id" = some (PyVal.pystr "ab") ∧
      uuidParse "ab" = none ∧
      from_dict [("id", PyVal.pystr "ab")] = Except.error PyErr.valueError) :=
  ⟨⟨by decide,
     C5_from_dict_amended.1 "color" (PyVal.pystr "red") [] (by decide)⟩,
   ⟨by decide, by decide,
     C5_from_dict_amended.2.1 [("id", PyVal.pystr uuidEx1)] uuidEx1
       (by decide) (by decide)⟩,
   ⟨by decide, by decide,
     C5_from_dict_amended.2.2.1 [("id", PyVal.pystr "ab")] "ab"
       (by decide) (by decide)⟩⟩

/-! ## Claim theorem for supplier inventory valuation -/

theorem inventory_fold_eq (cost : ℚ) (inv : List InventoryRec) :
    ∀ t : ℚ,
      inv.foldl
        (fun t2 i =>
          if 0 < i.quantity_available then
            t2 + (i.quantity_available : ℚ) * cost
          else t2) t =
      t + ((inv.filter (fun i => 0 < i.quantity_available)).map
        (fun i => (i.quantity_available : ℚ) * cost)).sum := by
  induction inv with
  | nil => intro t; simp
  | cons i rest ih =>
    intro t
    by_cases h : 0 < i.quantity_available
    · simp only [List.foldl_cons, if_pos h, List.filter_cons,
        decide_eq_true h, if_true, List.map_cons, List.sum_cons, ih]
      ring
    · simp only [List.foldl_cons, if_neg h, List.filter_cons,
        decide_eq_false h, Bool.false_eq_true, if_false, ih]

theorem supplier_fold_eq (ps : List ProductRec) :
    ∀ t : ℚ,
      ps.foldl
        (fun total p =>
          if p.is_active && pyTruthyCost p.unit_cost then
            p.inventory.foldl
              (fun t2 inv =>
                if 0 < inv.quantity_available then
                  t2 + (inv.quantity_available : ℚ) * p.unit_cost.getD 0
                else t2)
              total
          else total) t =
      t + ((ps.filter (fun p => p.is_active && p.unit_cost.isSome)).map
        (fun p =>
          ((p.inventory.filter (fun i => 0 < i.quantity_available)).map
            (fun i => (i.quantity_available : ℚ) * p.unit_cost.getD 0)).sum)).sum := by
  induction ps with
  | nil => intro t; simp
  | cons p rest ih =>
    intro t
    by_cases hcase : (p.is_active && pyTruthyCost p.unit_cost) = true
    · have hsome : (p.is_active && p.unit_cost.isSome) = true := by
        have hsplit : p.is_active = true ∧ pyTruthyCost p.unit_cost = true := by
          simpa using hcase
        cases hu : p.unit_cost with
        | none =>
          have := hsplit.2
          rw [hu] at this
          simp [pyTruthyCost] at this
        | some cval => simp [hsplit.1, hu]
      simp only [List.foldl_cons, if_pos hcase, List.filter_cons, hsome,
        if_true, List.map_cons, List.sum_cons]
      rw [inventory_fold_eq, ih]
      ring
    · have hb : (p.is_active && pyTruthyCost p.unit_cost) = false := by
        revert hcase; cases p.is_active && pyTruthyCost p.unit_cost <;> simp
      simp only [List.foldl_cons, hb, Bool.false_eq_true, if_false]
      by_cases hsome : (p.is_active && p.unit_cost.isSome) = true
      · have hsplit : p.is_active = true ∧ p.unit_cost.isSome = true := by
          simpa using hsome
        have ha : p.is_active = true := hsplit.1
        have hcost : p.unit_cost = some 0 := by
          cases hu : p.unit_cost with
          | none =>
            have := hsplit.2
            rw [hu] at this
            simp at this
          | some cval =>
            have htr : pyTruthyCost (some cval) = false := by
              rw [← hu]
              rw [ha] at hb
              simpa using hb
            have hc0 : cval = 0 := by
              simpa [pyTruthyCost] using htr
            rw [hc0]
        have hzero :
            ((p.inventory.filter (fun i => 0 < i.quantity_available)).map
              (fun i => (i.quantity_available : ℚ) * p.unit_cost.getD 0)).sum = 0 := by
          apply List.sum_eq_zero
          intro x hx
          obtain ⟨i, _, rfl⟩ := List.mem_map.mp hx
          rw [hcost]
          simp
        simp only [List.filter_cons, hsome, if_true, List.map_cons,
          List.sum_cons, hzero, zero_add]
        exact ih t
      · have hsome' : (p.is_active && p.unit_cost.isSome) = false := by
          revert hsome; cases p.is_active && p.unit_cost.isSome <;> simp
        simp only [List.filter_cons, hsome', Bool.false_eq_true, if_false]
        exact ih t

/-- C9: the supplier's total inventory value equals the exact rational
sum over active products with a defined unit cost of
`unit_cost × quantity_available` across inventory records with positive
available quantity; on the two-product example the value is 1500. -/
theorem C9_total_inventory_value :
    (∀ s : SupplierRec,
      get_total_inventory_value s = totalInventoryValue_spec s) ∧
    get_total_inventory_value supplierEx = 1500 := by
  constructor
  · intro s
    unfold get_total_inventory_value totalInventoryValue_spec
    rw [supplier_fold_eq]
    simp
  · norm_num [get_total_inventory_value, supplierEx, pyTruthyCost]

/-! ## Claim theorem for the migration runner -/

theorem applyFiles_ledger (ex : MigFile → Bool) (ap : List String) :
    ∀ (S : List MigFile) (L : List String),
      (applyFiles ex ap S L).1 = L ++ (applyFiles ex ap S L).2.1 := by
  intro S
  induction S with
  | nil => intro L; simp [applyFiles]
  | cons f rest ih =>
    intro L
    by_cases h1 : f.stem ∈ ap
    · simp only [applyFiles, if_pos h1]
      exact ih L
    · by_cases h2 : ex f = true
      · simp only [applyFiles, if_neg h1, if_pos h2]
        rw [ih (L ++ [f.stem])]
        simp
      · simp [applyFiles, h1, h2]

theorem applyFiles_rerun (ex : MigFile → Bool) :
    ∀ (S : List MigFile) (ap L : List String),
      (S.map MigFile.stem).Nodup →
      (∀ s ∈ S.map MigFile.stem, s ∈ L → s ∈ ap) →
      ap ⊆ L →
      applyFiles ex (applyFiles ex ap S L).1 S (applyFiles ex ap S L).1 =
        ((applyFiles ex ap S L).1, [], (applyFiles ex ap S L).2.2) := by
  intro S
  induction S with
  | nil => intro ap L _ _ _; simp [applyFiles]
  | cons f rest ih =>
    intro ap L hnd hinv hsub
    simp only [List.map_cons, List.nodup_cons] at hnd
    by_cases h1 : f.stem ∈ ap
    · have e1 : applyFiles ex ap (f :: rest) L = applyFiles ex ap rest L := by
        simp [applyFiles, h1]
      rw [e1]
      have hL1 : f.stem ∈ (applyFiles ex ap rest L).1 := by
        rw [applyFiles_ledger]
        exact List.mem_append_left _ (hsub h1)
      have e2 : applyFiles ex (applyFiles ex ap rest L).1 (f :: rest)
          (applyFiles ex ap rest L).1 =
          applyFiles ex (applyFiles ex ap rest L).1 rest
            (applyFiles ex ap rest L).1 := by
        simp [applyFiles, hL1]
      rw [e2]
      exact ih ap L hnd.2
        (fun s hs hsl => hinv s (List.mem_cons_of_mem _ hs) hsl) hsub
    · by_cases h2 : ex f = true
      · have e1 : applyFiles ex ap (f :: rest) L =
            ((applyFiles ex ap rest (L ++ [f.stem])).1,
             f.stem :: (applyFiles ex ap rest (L ++ [f.stem])).2.1,
             (applyFiles ex ap rest (L ++ [f.stem])).2.2) := by
          simp [applyFiles, h1, h2]
        rw [e1]
        have hmem : f.stem ∈ (applyFiles ex ap rest (L ++ [f.stem])).1 := by
          rw [applyFiles_ledger]
          exact List.mem_append_left _
            (List.mem_append_right _ (List.mem_singleton_self _))
        have e2 : applyFiles ex (applyFiles ex ap rest (L ++ [f.stem])).1
            (f :: rest) (applyFiles ex ap rest (L ++ [f.stem])).1 =
            applyFiles ex (applyFiles ex ap rest (L ++ [f.stem])).1 rest
              (applyFiles ex ap rest (L ++ [f.stem])).1 := by
          simp [applyFiles, hmem]
        rw [e2]
        apply ih ap (L ++ [f.stem]) hnd.2
        · intro s hs hmem2
          rcases List.mem_append.mp hmem2 with hL | hstem
          · exact hinv s (List.mem_cons_of_mem _ hs) hL
          · rw [List.mem_singleton] at hstem
            exact absurd (hstem ▸ hs) hnd.1
        · exact fun x hx => List.mem_append_left _ (hsub hx)
      · have hb : ex f = false := by
          revert h2; cases ex f <;> simp
        have e1 : applyFiles ex ap (f :: rest) L = (L, [], false) := by
          simp [applyFiles, h1, hb]
        rw [e1]
        have hnotL : f.stem ∉ L := fun hmem =>
          h1 (hinv f.stem (List.mem_cons_self _ _) hmem)
        simp [applyFiles, hnotL, hb]

/-- C8: for every set of migration files (with their distinct filename
stems as versions) and every ledger state, the second of two consecutive
`run_migrations` runs applies zero units and leaves the ledger unchanged;
files already in the ledger snapshot are skipped, and files are processed
in sorted (lexicographic) filename order. -/
theorem C8_migrations_idempotent (ex : MigFile → Bool) (files : List MigFile)
    (L0 : List String) (hnd : (files.map MigFile.stem).Nodup) :
    (run_migrations ex files (run_migrations ex files L0).1).2.1 = [] ∧
    (run_migrations ex files (run_migrations ex files L0).1).1 =
      (run_migrations ex files L0).1 ∧
    List.Sorted fileLE (sortMigrations files) := by
  have hperm : List.Perm (sortMigrations files) files :=
    List.perm_insertionSort fileLE files
  have hnd' : ((sortMigrations files).map MigFile.stem).Nodup :=
    ((hperm.map MigFile.stem).nodup_iff).mpr hnd
  have key := applyFiles_rerun ex (sortMigrations files) L0 L0 hnd'
    (fun s _ hs => hs) (fun x hx => hx)
  unfold run_migrations
  rw [key]
  exact ⟨rfl, rfl, List.sorted_insertionSort fileLE files⟩

theorem C8_witness :
    (migsEx.map MigFile.stem).Nodup ∧
      ((run_migrations (fun _ => true) migsEx
          (run_migrations (fun _ => true) migsEx []).1).2.1 = [] ∧
       (run_migrations (fun _ => true) migsEx
          (run_migrations (fun _ => true) migsEx []).1).1 =
         (run_migrations (fun _ => true) migsEx []).1 ∧
       List.Sorted fileLE (sortMigrations migsEx)) :=
  ⟨by decide, C8_migrations_idempotent (fun _ => true) migsEx [] (by decide)⟩

end Inventory
